import Mathlib

/-!
Verification of the container core of go.dagger.io/dagger (core/container.go).

The Go source is shallowly embedded: the content-addressed container payload,
its identity codec, the pure copy-on-write operations (WithMountedDirectory,
UpdateImageConfig, the withVariable/withWorkdir schema resolvers), the Exec
pipeline, and the metadata retrieval functions (MetaFile, ExitCode).

Collaborators that live outside core/container.go (the buildkit gateway,
defToState, the shim builder, the File/Directory types, strconv.Atoi and the
encodeID/decodeID helpers) are modelled from the spec, each marked by a doc
comment starting with "Modelled from the spec:".
-/

/-- Modelled from the spec: a marshaled, engine-consumable graph definition
(pb.Definition in the source). Its bytes are opaque to this core, so it is
modelled as an abstract content token. -/
abbrev Definition := Nat

/-- ContainerID is an opaque value representing a content-addressed container
(core/container.go line 29). -/
abbrev ContainerID := String

/-- Container is a content-addressed container (core/container.go line 21). -/
structure Container where
  ID : ContainerID
deriving DecidableEq

/-- The subset of the OCI image configuration (specs.ImageConfig, an external
library type) that this core reads: environment list, working directory, and
entrypoint. -/
structure ImageConfig where
  Env : List String := []
  WorkingDir : String := ""
  Entrypoint : List String := []
deriving DecidableEq

/-- ContainerMount is a mount point configured in a container
(core/container.go lines 98-108). -/
structure ContainerMount where
  Source : Option Definition := none
  SourcePath : String := ""
  Target : String := ""
deriving DecidableEq

/-- containerIDPayload is the inner content of a ContainerID
(core/container.go lines 45-58). The zero value is the scratch payload. -/
structure containerIDPayload where
  FS : Option Definition := none
  Config : ImageConfig := {}
  Mounts : List ContainerMount := []
  Meta : Option Definition := none
deriving DecidableEq

/-! ## Identity codec

Modelled from the spec: encodeID/decodeID live outside core/container.go.
The spec requires a deterministic, canonical serialization with
decode(encode(p)) == p for every valid payload p.  The model realizes it as a
concrete self-delimiting serializer (unary lengths, length-prefixed strings)
together with a total parser, and proves the roundtrip, which yields
injectivity (canonicity) of the encoder. -/

/-- Unary encoding of a natural number, terminated by a sentinel. -/
def encNat (n : Nat) : List Char := List.replicate n '1' ++ [';']

/-- Parser inverse of encNat, returning the value and the unread rest. -/
def decNat : List Char → Option (Nat × List Char)
  | [] => none
  | c :: rest =>
    if c = ';' then some (0, rest)
    else if c = '1' then
      match decNat rest with
      | some (n, r) => some (n + 1, r)
      | none => none
    else none

/-- Length-prefixed encoding of a string. -/
def encStr (s : String) : List Char := encNat s.data.length ++ s.data

/-- Parser inverse of encStr. -/
def decStr (cs : List Char) : Option (String × List Char) :=
  match decNat cs with
  | some (n, rest) =>
    if n ≤ rest.length then some (String.mk (rest.take n), rest.drop n) else none
  | none => none

/-- Encoding of an optional graph definition. -/
def encOptDef : Option Definition → List Char
  | none => ['0']
  | some n => '1' :: encNat n

/-- Parser inverse of encOptDef. -/
def decOptDef : List Char → Option (Option Definition × List Char)
  | [] => none
  | c :: rest =>
    if c = '0' then some (none, rest)
    else if c = '1' then
      match decNat rest with
      | some (n, r) => some (some n, r)
      | none => none
    else none

/-- Length-prefixed encoding of a list, given an element encoder. -/
def encListWith (f : α → List Char) (xs : List α) : List Char :=
  encNat xs.length ++ (xs.map f).flatten

/-- Parse exactly n elements with the element parser g. -/
def decListN (g : List Char → Option (α × List Char)) :
    Nat → List Char → Option (List α × List Char)
  | 0, cs => some ([], cs)
  | n + 1, cs =>
    match g cs with
    | some (a, r) =>
      match decListN g n r with
      | some (as, r2) => some (a :: as, r2)
      | none => none
    | none => none

/-- Parser inverse of encListWith. -/
def decListWith (g : List Char → Option (α × List Char)) (cs : List Char) :
    Option (List α × List Char) :=
  match decNat cs with
  | some (n, rest) => decListN g n rest
  | none => none

/-- Serialization of one mount entry. -/
def encMount (m : ContainerMount) : List Char :=
  encOptDef m.Source ++ encStr m.SourcePath ++ encStr m.Target

/-- Parser inverse of encMount. -/
def decMount (cs : List Char) : Option (ContainerMount × List Char) :=
  match decOptDef cs with
  | some (src, r1) =>
    match decStr r1 with
    | some (sp, r2) =>
      match decStr r2 with
      | some (t, r3) => some ({ Source := src, SourcePath := sp, Target := t }, r3)
      | none => none
    | none => none
  | none => none

/-- Serialization of the image configuration. -/
def encConfig (cfg : ImageConfig) : List Char :=
  encListWith encStr cfg.Env ++ encStr cfg.WorkingDir ++ encListWith encStr cfg.Entrypoint

/-- Parser inverse of encConfig. -/
def decConfig (cs : List Char) : Option (ImageConfig × List Char) :=
  match decListWith decStr cs with
  | some (env, r1) =>
    match decStr r1 with
    | some (wd, r2) =>
      match decListWith decStr r2 with
      | some (ep, r3) => some ({ Env := env, WorkingDir := wd, Entrypoint := ep }, r3)
      | none => none
    | none => none
  | none => none

/-- Serialization of the whole payload, in a fixed field order. -/
def encPayload (p : containerIDPayload) : List Char :=
  encOptDef p.FS ++ encConfig p.Config ++ encListWith encMount p.Mounts ++ encOptDef p.Meta

/-- Parser inverse of encPayload. -/
def decPayload (cs : List Char) : Option (containerIDPayload × List Char) :=
  match decOptDef cs with
  | some (fs, r1) =>
    match decConfig r1 with
    | some (cfg, r2) =>
      match decListWith decMount r2 with
      | some (mnts, r3) =>
        match decOptDef r3 with
        | some (meta, r4) => some ({ FS := fs, Config := cfg, Mounts := mnts, Meta := meta }, r4)
        | none => none
      | none => none
    | none => none
  | none => none

/-- Modelled from the spec: the canonical encoder of a payload into its opaque
identity string (the encodeID helper, outside core/container.go). -/
def encodeID (p : containerIDPayload) : ContainerID := String.mk (encPayload p)

/-- Modelled from the spec: the decoder of an identity string back into a
payload (the decodeID helper, outside core/container.go); it rejects inputs
that do not parse exactly. -/
def decodeID (s : String) : Option containerIDPayload :=
  match decPayload s.data with
  | some (p, []) => some p
  | _ => none

/-! ### Roundtrip lemmas for the codec -/

theorem take_len_append (l r : List Char) : (l ++ r).take l.length = l := by
  induction l with
  | nil => simp
  | cons a t ih => simp [ih]

theorem drop_len_append (l r : List Char) : (l ++ r).drop l.length = r := by
  induction l with
  | nil => simp
  | cons a t ih => simp [ih]

theorem decNat_encNat (n : Nat) (r : List Char) :
    decNat (encNat n ++ r) = some (n, r) := by
  induction n with
  | zero => simp [encNat, decNat]
  | succ k ih =>
    have h1 : encNat (k + 1) ++ r = '1' :: (encNat k ++ r) := by
      simp [encNat, List.replicate_succ]
    rw [h1]
    simp only [decNat]
    rw [if_neg (by decide), if_pos trivial, ih]

theorem decStr_encStr (s : String) (r : List Char) :
    decStr (encStr s ++ r) = some (s, r) := by
  simp only [encStr, decStr, List.append_assoc, decNat_encNat]
  rw [if_pos (by simp)]
  rw [take_len_append, drop_len_append]

theorem decOptDef_encOptDef (d : Option Definition) (r : List Char) :
    decOptDef (encOptDef d ++ r) = some (d, r) := by
  cases d with
  | none => simp [encOptDef, decOptDef]
  | some n =>
    simp only [encOptDef, List.cons_append, decOptDef]
    rw [if_neg (by decide), if_pos trivial, decNat_encNat]

theorem decListN_encListWith (f : α → List Char) (g : List Char → Option (α × List Char))
    (hg : ∀ x r, g (f x ++ r) = some (x, r)) (xs : List α) (r : List Char) :
    decListN g xs.length ((xs.map f).flatten ++ r) = some (xs, r) := by
  induction xs with
  | nil => simp [decListN]
  | cons a t ih =>
    simp only [List.map_cons, List.flatten_cons, List.length_cons, decListN, List.append_assoc]
    rw [hg]
    dsimp only
    rw [ih]

theorem decListWith_encListWith (f : α → List Char) (g : List Char → Option (α × List Char))
    (hg : ∀ x r, g (f x ++ r) = some (x, r)) (xs : List α) (r : List Char) :
    decListWith g (encListWith f xs ++ r) = some (xs, r) := by
  simp only [encListWith, decListWith, List.append_assoc, decNat_encNat]
  exact decListN_encListWith f g hg xs r

theorem decMount_encMount (m : ContainerMount) (r : List Char) :
    decMount (encMount m ++ r) = some (m, r) := by
  simp only [encMount, decMount, List.append_assoc, decOptDef_encOptDef, decStr_encStr]

theorem decConfig_encConfig (cfg : ImageConfig) (r : List Char) :
    decConfig (encConfig cfg ++ r) = some (cfg, r) := by
  simp only [encConfig, decConfig, List.append_assoc,
    decListWith_encListWith encStr decStr decStr_encStr, decStr_encStr]

theorem decPayload_encPayload (p : containerIDPayload) (r : List Char) :
    decPayload (encPayload p ++ r) = some (p, r) := by
  simp only [encPayload, decPayload, List.append_assoc, decOptDef_encOptDef,
    decConfig_encConfig, decListWith_encListWith encMount decMount decMount_encMount]

theorem decodeID_encodeID (p : containerIDPayload) : decodeID (encodeID p) = some p := by
  have h := decPayload_encPayload p []
  rw [List.append_nil] at h
  simp [decodeID, encodeID, h]

theorem encodeID_ne_empty (p : containerIDPayload) : encodeID p ≠ "" := by
  intro h
  have hd : (encodeID p).data = ("" : String).data := by rw [h]
  simp only [encodeID] at hd
  have : encPayload p = [] := hd
  unfold encPayload at this
  cases hfs : p.FS with
  | none => rw [hfs] at this; simp [encOptDef] at this
  | some d => rw [hfs] at this; simp [encOptDef] at this

/-! ## Lazy build-graph states and the collaborator boundary -/

mutual
/-- A lazy filesystem state (llb.State in the source): the canonical empty
state, a state recovered from a marshaled definition, or the root / a mount
of an executed run. -/
inductive LLBState where
  | scratch : LLBState
  | ofDef : Option Definition → LLBState
  | execRoot : LLBState → List RunOption → LLBState
  | execMount : LLBState → List RunOption → String → LLBState

/-- The run options assembled by Exec (the llb.RunOption values built in
core/container.go lines 219-254). -/
inductive RunOption where
  | addMount : String → LLBState → List MountOption → RunOption
  | args : List String → RunOption
  | withCustomName : String → RunOption
  | dir : String → RunOption
  | addEnv : String → String → RunOption

/-- Mount options (llb.MountOption): only SourcePath is used by this core. -/
inductive MountOption where
  | sourcePath : String → MountOption
end

/-- Modelled from the spec: the collaborator capability boundary consumed by
this core — the buildkit gateway client plus target platform plus context.
marshal turns a lazy state into a content-addressed graph definition
(llb.State.Marshal), defToState evaluates a marshaled definition back into a
lazy state (the defToState helper), shimBuild provisions the supervising
shim's state (shim.Build), and fileContents reads a file of an evaluated
state (used by the File collaborator). Each capability may fail. -/
structure GraphEnv where
  shimBuild : Except String LLBState
  defToState : Option Definition → Except String LLBState
  marshal : LLBState → Except String Definition
  fileContents : LLBState → String → Option String

/-- metaMount is the special path that the shim writes metadata to
(core/container.go line 81). -/
def metaMount : String := "/dagger"

/-- Modelled from the spec: the fixed, reserved path at which the shim binary
is mounted (shim.Path, outside this file). -/
def shimPath : String := "/_shim"

/-- Go-style sequential mapping over a fallible per-element operation: the
loops in Exec abort at the first failing element. -/
def mapExcept (f : α → Except String β) : List α → Except String (List β)
  | [] => .ok []
  | a :: as =>
    match f a with
    | .error e => .error e
    | .ok b =>
      match mapExcept f as with
      | .error e => .error e
      | .ok bs => .ok (b :: bs)

/-! ## The container payload operations (core/container.go) -/

/-- decode of a ContainerID (core/container.go lines 31-43): the empty string
is scratch, anything else is deserialized. -/
def ContainerID.decode (id : ContainerID) : Except String containerIDPayload :=
  if id = "" then .ok {}
  else
    match decodeID id with
    | some p => .ok p
    | none => .error "failed to decode container ID"

/-- Encode returns the opaque string ID representation of the container
(core/container.go lines 61-68). The modelled encoder is total, so the error
branch of the Go helper is unreachable here. -/
def containerIDPayload.Encode (payload : containerIDPayload) : Except String ContainerID :=
  .ok (encodeID payload)

/-- FSState returns the container's root filesystem mount state; if there is
none (as with an empty container ID) it returns scratch
(core/container.go lines 72-78). -/
def containerIDPayload.FSState (payload : containerIDPayload) (env : GraphEnv) :
    Except String LLBState :=
  match payload.FS with
  | none => .ok .scratch
  | some d => env.defToState (some d)

/-- MetaState returns the container's metadata mount state; nil if the
container has yet to run (core/container.go lines 85-96). -/
def containerIDPayload.MetaState (payload : containerIDPayload) (env : GraphEnv) :
    Except String (Option LLBState) :=
  match payload.Meta with
  | none => .ok none
  | some d =>
    match env.defToState (some d) with
    | .error e => .error e
    | .ok st => .ok (some st)

/-- SourceState returns the state of the source of the mount
(core/container.go lines 111-113). -/
def ContainerMount.SourceState (mnt : ContainerMount) (env : GraphEnv) :
    Except String LLBState :=
  env.defToState mnt.Source

/-- Modelled from the spec: a directory value is a lazy filesystem state plus
a relative path within it (the Directory collaborator, outside this file). -/
structure Directory where
  st : LLBState
  rel : String

/-- Modelled from the spec: Directory.Decode yields the directory's lazy
state and relative sub-path. The model keeps the pair directly, so decoding
cannot fail here. -/
def Directory.Decode (d : Directory) : Except String (LLBState × String) :=
  .ok (d.st, d.rel)

/-- WithMountedDirectory appends a mount entry for the marshaled source
directory (core/container.go lines 150-178). -/
def Container.WithMountedDirectory (container : Container) (env : GraphEnv)
    (target : String) (source : Directory) : Except String Container :=
  match container.ID.decode with
  | .error e => .error e
  | .ok payload =>
    match source.Decode with
    | .error e => .error e
    | .ok (dirSt, dirRel) =>
      match env.marshal dirSt with
      | .error e => .error e
      | .ok dirDef =>
        let payload2 := { payload with
          Mounts := payload.Mounts ++
            [({ Source := some dirDef, SourcePath := dirRel, Target := target } : ContainerMount)] }
        match payload2.Encode with
        | .error e => .error e
        | .ok id => .ok { ID := id }

/-- UpdateImageConfig re-encodes the payload with the transformed image
configuration (core/container.go lines 189-203). -/
def Container.UpdateImageConfig (container : Container)
    (updateFn : ImageConfig → ImageConfig) : Except String Container :=
  match container.ID.decode with
  | .error e => .error e
  | .ok payload =>
    let payload2 := { payload with Config := updateFn payload.Config }
    match payload2.Encode with
    | .error e => .error e
    | .ok id => .ok { ID := id }

/-! ## The Exec pipeline (core/container.go lines 205-293) -/

/-- ContainerExecOpts (core/container.go lines 448-452). -/
structure ContainerExecOpts where
  Stdin : Option String := none
  RedirectStdout : Option String := none
  RedirectStderr : Option String := none
deriving DecidableEq

/-- strings.Cut on the first separator occurrence, list level: returns the
parts before and after the separator, or none when absent. -/
def cutChar (sep : Char) : List Char → Option (List Char × List Char)
  | [] => none
  | c :: cs =>
    if c = sep then some ([], cs)
    else
      match cutChar sep cs with
      | some (a, b) => some (c :: a, b)
      | none => none

/-- The strings.Cut call of Exec (core/container.go line 232): split an
environment entry on the first "="; when no "=" is present the whole entry is
the name and the value is empty. -/
def cutEq (s : String) : String × String :=
  match cutChar '=' s.data with
  | some (a, b) => (String.mk a, String.mk b)
  | none => (s, "")

/-- The four base run options: shim mount, shim-prefixed arguments, custom
name, fresh scratch metadata mount (core/container.go lines 219-225). -/
def baseRunOpts (shimSt : LLBState) (args : List String) : List RunOption :=
  [ .addMount shimPath shimSt [.sourcePath shimPath],
    .args (shimPath :: args),
    .withCustomName (String.intercalate " " args),
    .addMount metaMount .scratch [] ]

/-- The working-directory option, added only when configured
(core/container.go lines 227-229). -/
def workdirOpts (cfg : ImageConfig) : List RunOption :=
  if cfg.WorkingDir = "" then [] else [.dir cfg.WorkingDir]

/-- One llb.AddEnv option per configured environment entry
(core/container.go lines 231-240). -/
def envVarOpts (envs : List String) : List RunOption :=
  envs.map (fun e => .addEnv (cutEq e).1 (cutEq e).2)

/-- Re-attachment of one pre-existing mount at its target with its sub-path,
with the mount-tagged error wrapping (core/container.go lines 242-254). -/
def mountRunOpt (env : GraphEnv) (mnt : ContainerMount) : Except String RunOption :=
  match mnt.SourceState env with
  | .error e => .error ("mount " ++ mnt.Target ++ ": " ++ e)
  | .ok st =>
    .ok (.addMount mnt.Target st
      (if mnt.SourcePath = "" then [] else [.sourcePath mnt.SourcePath]))

/-- Steps 2-3 of the pipeline: build the shim, assemble all run options in
source order (base, workdir, env, mounts), and resolve the filesystem state
(core/container.go lines 214-259). -/
def execAssemble (env : GraphEnv) (payload : containerIDPayload) (args : List String) :
    Except String (LLBState × List RunOption) :=
  match env.shimBuild with
  | .error e => .error ("build shim: " ++ e)
  | .ok shimSt =>
    match mapExcept (mountRunOpt env) payload.Mounts with
    | .error e => .error e
    | .ok mountOpts =>
      let runOpts := baseRunOpts shimSt args ++ workdirOpts payload.Config ++
        envVarOpts payload.Config.Env ++ mountOpts
      match payload.FSState env with
      | .error e => .error ("fs state: " ++ e)
      | .ok st => .ok (st, runOpts)

/-- Propagation of one mount: marshal the post-execution state of the mount
target and replace the source reference (core/container.go lines 269-276). -/
def propagateMount (env : GraphEnv) (st : LLBState) (runOpts : List RunOption)
    (mnt : ContainerMount) : Except String ContainerMount :=
  match env.marshal (.execMount st runOpts mnt.Target) with
  | .error e => .error ("propagate " ++ mnt.Target ++ ": " ++ e)
  | .ok d => .ok { mnt with Source := some d }

/-- Exec extends the container with the effect of running args under the shim
(core/container.go lines 205-293). The opts parameter is accepted but never
consulted by the source. -/
def Container.Exec (container : Container) (env : GraphEnv) (args : List String)
    (opts : ContainerExecOpts) : Except String Container :=
  match container.ID.decode with
  | .error e => .error ("decode id: " ++ e)
  | .ok payload =>
    match execAssemble env payload args with
    | .error e => .error e
    | .ok (st, runOpts) =>
      match env.marshal (.execRoot st runOpts) with
      | .error e => .error ("marshal root: " ++ e)
      | .ok execDef =>
        match mapExcept (propagateMount env st runOpts) payload.Mounts with
        | .error e => .error e
        | .ok newMounts =>
          match env.marshal (.execMount st runOpts metaMount) with
          | .error e => .error ("get meta mount: " ++ e)
          | .ok metaDef =>
            let payload2 : containerIDPayload :=
              { payload with FS := some execDef, Mounts := newMounts, Meta := some metaDef }
            match payload2.Encode with
            | .error e => .error ("encode: " ++ e)
            | .ok id => .ok { ID := id }

/-! ## Metadata retrieval (core/container.go lines 295-334) -/

/-- Modelled from the spec: a file value is a lazy filesystem state plus a
path within it (the File collaborator, outside this file). -/
structure File where
  st : LLBState
  path : String

/-- Modelled from the spec: NewFile builds the lazy file handle for a path
inside a state (outside this file); construction itself cannot fail here. -/
def NewFile (st : LLBState) (path : String) : File := { st := st, path := path }

/-- MetaFile resolves a file handle inside the metadata mount, or nil when
the container has yet to run (core/container.go lines 318-334). -/
def Container.MetaFile (container : Container) (env : GraphEnv) (path : String) :
    Except String (Option File) :=
  match container.ID.decode with
  | .error e => .error e
  | .ok payload =>
    match payload.MetaState env with
    | .error e => .error e
    | .ok none => .ok none
    | .ok (some st) => .ok (some (NewFile st path))

/-- ExitCode as written in the source (core/container.go lines 295-316): when
the metadata file handle exists it returns nil ("not available") at line 302,
and when the handle is nil it goes on to call Contents on the nil pointer,
which faults at run time. The integer parse below line 305 is unreachable. -/
def Container.ExitCode (container : Container) (env : GraphEnv) :
    Except String (Option Int) :=
  match container.MetaFile env "exitCode" with
  | .error e => .error e
  | .ok (some _) => .ok none
  | .ok none =>
    .error "runtime error: invalid memory address or nil pointer dereference"

/-- Parse a nonempty run of decimal digits. -/
def parseDigits : List Char → Option Nat
  | [] => none
  | [c] => if '0' ≤ c ∧ c ≤ '9' then some (c.toNat - '0'.toNat) else none
  | c :: cs =>
    if '0' ≤ c ∧ c ≤ '9' then
      match parseDigits cs with
      | some n => some ((c.toNat - '0'.toNat) * 10 ^ cs.length + n)
      | none => none
    else none

/-- Modelled from the spec: strconv.Atoi, a base-10 integer parser with an
optional sign, failing on any other content. -/
def atoi (s : String) : Option Int :=
  match s.data with
  | '-' :: rest => (parseDigits rest).map (fun n => -(n : Int))
  | '+' :: rest => (parseDigits rest).map (fun n => (n : Int))
  | ds => (parseDigits ds).map (fun n => (n : Int))

/-- Modelled from the spec: the corrected exitCode contract of section 4.4 —
metadata absent means "not available" with no error; otherwise the exitCode
file's content is parsed as a base-10 integer when present, with a ParseError
on non-integer content, and absence of the file again means "not available"
with no error. -/
def specExitCode (container : Container) (env : GraphEnv) :
    Except String (Option Int) :=
  match container.MetaFile env "exitCode" with
  | .error e => .error e
  | .ok none => .ok none
  | .ok (some file) =>
    match env.fileContents file.st file.path with
    | none => .ok none
    | some content =>
      match atoi content with
      | some n => .ok (some n)
      | none => .error "ParseError"

/-! ## Schema resolvers (core/container.go lines 336-532) -/

/-- The withWorkdir resolver sets the configured working directory
(core/container.go lines 474-479). -/
def containerSchema.withWorkdir (parent : Container) (path : String) :
    Except String Container :=
  parent.UpdateImageConfig (fun cfg => { cfg with WorkingDir := path })

/-- strings.HasPrefix at the character-list level. -/
def hasPrefixL : List Char → List Char → Bool
  | [], _ => true
  | _ :: _, [] => false
  | p :: ps, c :: cs => p == c && hasPrefixL ps cs

/-- strings.HasPrefix: does s start with pre? -/
def hasPrefixStr (pre s : String) : Bool := hasPrefixL pre.data s.data

/-- The environment transform of the withVariable resolver
(core/container.go lines 495-514): keep every entry that does not start with
name+"=", then append the new name=value entry. -/
def withVariableUpdate (name value : String) (cfg : ImageConfig) : ImageConfig :=
  let newEnv := cfg.Env.filter (fun env => !(hasPrefixStr (name ++ "=") env))
  { cfg with Env := newEnv ++ [name ++ "=" ++ value] }

/-- The withVariable resolver (core/container.go lines 495-514). -/
def containerSchema.withVariable (parent : Container) (name value : String) :
    Except String Container :=
  parent.UpdateImageConfig (withVariableUpdate name value)

/-! ## General lemmas about the codec and the fallible loops -/

theorem decode_encodeID (p : containerIDPayload) :
    ContainerID.decode (encodeID p) = .ok p := by
  unfold ContainerID.decode
  rw [if_neg (encodeID_ne_empty p), decodeID_encodeID]

theorem encodeID_inj {p q : containerIDPayload} (h : encodeID p = encodeID q) : p = q := by
  have h1 := decodeID_encodeID p
  rw [h, decodeID_encodeID q] at h1
  exact (Option.some.inj h1).symm

theorem mapExcept_error {α β : Type} {f : α → Except String β} {l : List α} {e : String}
    (h : mapExcept f l = .error e) : ∃ a, a ∈ l ∧ f a = .error e := by
  induction l with
  | nil => simp [mapExcept] at h
  | cons a t ih =>
    simp only [mapExcept] at h
    split at h
    next e2 heq =>
      injection h with h2
      exact ⟨a, List.mem_cons_self a t, by rw [heq, h2]⟩
    next b heq =>
      split at h
      next e2 heq2 =>
        injection h with h2
        subst h2
        obtain ⟨x, hx, hfx⟩ := ih heq2
        exact ⟨x, List.mem_cons_of_mem a hx, hfx⟩
      next => cases h

theorem mapExcept_ok {α β : Type} {f : α → Except String β} {l : List α} {l2 : List β}
    (h : mapExcept f l = .ok l2) :
    l2.length = l.length ∧
    ∀ i (h1 : i < l.length) (h2 : i < l2.length),
      f (l.get ⟨i, h1⟩) = .ok (l2.get ⟨i, h2⟩) := by
  induction l generalizing l2 with
  | nil =>
    simp only [mapExcept, Except.ok.injEq] at h
    subst h
    exact ⟨rfl, fun i h1 _ => absurd h1 (by simp)⟩
  | cons a t ih =>
    simp only [mapExcept] at h
    split at h
    next => cases h
    next b heq =>
      split at h
      next => cases h
      next bs heq2 =>
        injection h with h2
        subst h2
        obtain ⟨hlen, helem⟩ := ih heq2
        refine ⟨by simp [hlen], ?_⟩
        intro i h1 h2
        cases i with
        | zero => simpa using heq
        | succ j => exact helem j (by simpa using h1) (by simpa using h2)

/-- C5: for every valid container payload p, decode(encode(p)) deep-equals p,
and encode is canonical: as a function it sends structurally equal payloads to
identical identity strings, and it is injective, so structurally different
payloads — including the same mount entries in a different list order — yield
different identity strings. -/
theorem encode_decode_roundtrip_canonical :
    (∀ (p : containerIDPayload) (id : ContainerID), p.Encode = .ok id → id.decode = .ok p) ∧
    (∀ p q : containerIDPayload, encodeID p = encodeID q → p = q) := by
  constructor
  · intro p id h
    have h2 : encodeID p = id := Except.ok.inj h
    rw [← h2]
    exact decode_encodeID p
  · intro p q h
    exact encodeID_inj h

def payloadP5 : containerIDPayload :=
  { FS := some 1,
    Config := { Env := ["A=1"], WorkingDir := "/w", Entrypoint := [] },
    Mounts := [{ Source := some 2, SourcePath := "s", Target := "/m" }],
    Meta := none }

theorem encode_decode_roundtrip_canonical_witness :
    ContainerID.decode (encodeID payloadP5) = .ok payloadP5 ∧ payloadP5 = payloadP5 :=
  ⟨encode_decode_roundtrip_canonical.1 payloadP5 (encodeID payloadP5) rfl,
   encode_decode_roundtrip_canonical.2 payloadP5 payloadP5 rfl⟩

/-- C7: decoding the empty identity string succeeds and yields the scratch
payload — null filesystem reference, default image configuration, empty mount
list, null metadata reference — and resolving that payload's filesystem
yields the canonical empty state without error, for every engine. -/
theorem decode_empty_scratch :
    ContainerID.decode "" =
      .ok { FS := none, Config := { Env := [], WorkingDir := "", Entrypoint := [] },
            Mounts := [], Meta := none } ∧
    ∀ env : GraphEnv,
      containerIDPayload.FSState
        { FS := none, Config := { Env := [], WorkingDir := "", Entrypoint := [] },
          Mounts := [], Meta := none } env = .ok .scratch := by
  exact ⟨rfl, fun _ => rfl⟩

/-- C9: UpdateImageConfig — and hence the withWorkdir and withVariable
resolvers built on it — changes only the image-configuration field: the new
identity decodes to a payload whose filesystem reference, mount list and
metadata reference equal those of the original payload, and whose
configuration is the transformed one. -/
theorem updateImageConfig_frame (c : Container) (p : containerIDPayload)
    (updateFn : ImageConfig → ImageConfig) (hdec : c.ID.decode = .ok p) :
    ∃ c' p', c.UpdateImageConfig updateFn = .ok c' ∧ c'.ID.decode = .ok p' ∧
      p'.FS = p.FS ∧ p'.Mounts = p.Mounts ∧ p'.Meta = p.Meta ∧
      p'.Config = updateFn p.Config := by
  refine ⟨{ ID := encodeID { p with Config := updateFn p.Config } },
    { p with Config := updateFn p.Config }, ?_, decode_encodeID _, rfl, rfl, rfl, rfl⟩
  unfold Container.UpdateImageConfig
  rw [hdec]
  rfl

theorem updateImageConfig_frame_witness :
    ∃ c' p', Container.UpdateImageConfig { ID := "" }
        (fun cfg => { cfg with WorkingDir := "/w" }) = .ok c' ∧
      c'.ID.decode = .ok p' ∧
      p'.FS = ({} : containerIDPayload).FS ∧
      p'.Mounts = ({} : containerIDPayload).Mounts ∧
      p'.Meta = ({} : containerIDPayload).Meta ∧
      p'.Config = (fun cfg => { cfg with WorkingDir := "/w" }) ({} : containerIDPayload).Config :=
  updateImageConfig_frame { ID := "" } {} (fun cfg => { cfg with WorkingDir := "/w" }) rfl

/-- C10: a successful WithMountedDirectory yields a container whose mount
list is the original list with exactly one new entry {marshaled source,
sub-path, target} appended at the end, and whose filesystem reference, image
configuration and metadata reference are unchanged; the target is arbitrary,
so a duplicate target is permitted and existing entries keep their order. -/
theorem withMountedDirectory_append (c : Container) (env : GraphEnv)
    (p : containerIDPayload) (target : String) (source : Directory)
    (dirDef : Definition) (hdec : c.ID.decode = .ok p)
    (hmar : env.marshal source.st = .ok dirDef) :
    ∃ c' p', c.WithMountedDirectory env target source = .ok c' ∧
      c'.ID.decode = .ok p' ∧
      p'.Mounts = p.Mounts ++
        [{ Source := some dirDef, SourcePath := source.rel, Target := target }] ∧
      p'.FS = p.FS ∧ p'.Config = p.Config ∧ p'.Meta = p.Meta := by
  refine ⟨{ ID := encodeID { p with Mounts := p.Mounts ++
      [{ Source := some dirDef, SourcePath := source.rel, Target := target }] } },
    { p with Mounts := p.Mounts ++
      [{ Source := some dirDef, SourcePath := source.rel, Target := target }] },
    ?_, decode_encodeID _, rfl, rfl, rfl, rfl⟩
  unfold Container.WithMountedDirectory
  rw [hdec]
  dsimp only [Directory.Decode]
  rw [hmar]
  rfl

def engineMount : GraphEnv :=
  { shimBuild := .ok .scratch, defToState := fun d => .ok (.ofDef d),
    marshal := fun _ => .ok 9, fileContents := fun _ _ => none }

def payloadP10 : containerIDPayload :=
  { Mounts := [{ Source := some 5, SourcePath := "", Target := "/m" }] }

theorem withMountedDirectory_append_witness :
    ∃ c' p', Container.WithMountedDirectory { ID := encodeID payloadP10 } engineMount
        "/m" { st := .scratch, rel := "sub" } = .ok c' ∧
      c'.ID.decode = .ok p' ∧
      p'.Mounts = payloadP10.Mounts ++
        [{ Source := some 9,
           SourcePath := ({ st := .scratch, rel := "sub" } : Directory).rel,
           Target := "/m" }] ∧
      p'.FS = payloadP10.FS ∧ p'.Config = payloadP10.Config ∧
      p'.Meta = payloadP10.Meta :=
  withMountedDirectory_append { ID := encodeID payloadP10 } engineMount payloadP10
    "/m" { st := .scratch, rel := "sub" } 9 (decode_encodeID payloadP10) rfl

/-- C6 counterexample: the claim predicts that withVariable("A","9") on a
configuration with Env=["A"] removes the entry "A" — whose name under the
split-on-first-equals convention is "A" — leaving ["A=9"]; the code matches
entries only by the "A=" prefix, keeps "A", and yields ["A","A=9"], so two
entries whose name is "A" coexist afterward. -/
theorem withVariable_name_match_cex :
    containerSchema.withVariable { ID := encodeID { Config := { Env := ["A"] } } } "A" "9" =
      .ok { ID := encodeID { Config := { Env := ["A", "A=9"] } } } ∧
    (cutEq "A").1 = "A" ∧ (cutEq "A=9").1 = "A" ∧
    (["A", "A=9"] : List String) ≠ ["A=9"] := by
  refine ⟨rfl, by decide, by decide, by decide⟩

/-- C6 (amended): withVariable produces a configuration whose environment
list is the old list with every entry beginning with name+"=" removed and the
single new name=value entry appended at the end, everything else unchanged;
hence no other entry beginning with name+"=" coexists with the new one. An
entry lacking "=" whose whole text equals the name is not removed. -/
theorem withVariable_replace_amended (c : Container) (p : containerIDPayload)
    (name value : String) (hdec : c.ID.decode = .ok p) :
    ∃ c' p', containerSchema.withVariable c name value = .ok c' ∧
      c'.ID.decode = .ok p' ∧
      p'.Config.Env =
        p.Config.Env.filter (fun e => !(hasPrefixStr (name ++ "=") e)) ++
          [name ++ "=" ++ value] ∧
      p'.Config.WorkingDir = p.Config.WorkingDir ∧
      p'.FS = p.FS ∧ p'.Mounts = p.Mounts ∧ p'.Meta = p.Meta ∧
      ∀ e ∈ p'.Config.Env, e ≠ name ++ "=" ++ value →
        hasPrefixStr (name ++ "=") e = false := by
  refine ⟨{ ID := encodeID { p with Config := withVariableUpdate name value p.Config } },
    { p with Config := withVariableUpdate name value p.Config },
    ?_, decode_encodeID _, rfl, rfl, rfl, rfl, rfl, ?_⟩
  · unfold containerSchema.withVariable Container.UpdateImageConfig
    rw [hdec]
    rfl
  · intro e he hne
    simp only [withVariableUpdate] at he
    rcases List.mem_append.1 he with hf | hs
    · have hp := List.of_mem_filter hf
      simpa using hp
    · exact absurd (List.mem_singleton.1 hs) hne

theorem withVariable_replace_amended_witness :
    ∃ c' p', containerSchema.withVariable
        { ID := encodeID { Config := { Env := ["A=1", "B=2"] } } } "A" "9" = .ok c' ∧
      c'.ID.decode = .ok p' ∧
      p'.Config.Env =
        ({ Config := { Env := ["A=1", "B=2"] } } : containerIDPayload).Config.Env.filter
          (fun e => !(hasPrefixStr ("A" ++ "=") e)) ++ ["A" ++ "=" ++ "9"] ∧
      p'.Config.WorkingDir =
        ({ Config := { Env := ["A=1", "B=2"] } } : containerIDPayload).Config.WorkingDir ∧
      p'.FS = ({ Config := { Env := ["A=1", "B=2"] } } : containerIDPayload).FS ∧
      p'.Mounts = ({ Config := { Env := ["A=1", "B=2"] } } : containerIDPayload).Mounts ∧
      p'.Meta = ({ Config := { Env := ["A=1", "B=2"] } } : containerIDPayload).Meta ∧
      ∀ e ∈ p'.Config.Env, e ≠ "A" ++ "=" ++ "9" →
        hasPrefixStr ("A" ++ "=") e = false :=
  withVariable_replace_amended
    { ID := encodeID { Config := { Env := ["A=1", "B=2"] } } }
    { Config := { Env := ["A=1", "B=2"] } } "A" "9"
    (decode_encodeID { Config := { Env := ["A=1", "B=2"] } })

/-- C2 (amended): Exec accepts the recognized-but-unimplemented options
(stdin, redirectStdout, redirectStderr) and silently ignores them — the
source never consults the opts argument, so the result is identical for any
option values and no "not implemented" error is ever produced for them. -/
theorem exec_opts_ignored (c : Container) (env : GraphEnv) (args : List String)
    (o1 o2 : ContainerExecOpts) :
    c.Exec env args o1 = c.Exec env args o2 := rfl

def engineOK : GraphEnv :=
  { shimBuild := .ok .scratch, defToState := fun d => .ok (.ofDef d),
    marshal := fun _ => .ok 0, fileContents := fun _ _ => none }

/-- C2 counterexample: with stdin, redirectStdout and redirectStderr all set,
Exec on the scratch container succeeds and returns a new identity — it does
not return a "not implemented" error, and the result equals the one obtained
with no options set at all. -/
theorem exec_opts_ignored_cex :
    Container.Exec { ID := "" } engineOK []
        { Stdin := some "hello", RedirectStdout := some "/out",
          RedirectStderr := some "/err" } =
      .ok { ID := encodeID { FS := some 0, Meta := some 0 } } ∧
    Container.Exec { ID := "" } engineOK []
        { Stdin := some "hello", RedirectStdout := some "/out",
          RedirectStderr := some "/err" } =
      Container.Exec { ID := "" } engineOK [] {} :=
  ⟨rfl, rfl⟩

def engineExit : GraphEnv :=
  { shimBuild := .ok .scratch, defToState := fun d => .ok (.ofDef d),
    marshal := fun _ => .ok 0,
    fileContents := fun st path =>
      match st, path with
      | .ofDef (some 3), "exitCode" => some "0"
      | _, _ => none }

/-- C1: the source's ExitCode inverts the intended lookup. On a container
whose metadata reference is non-null and whose metadata mount holds an
exitCode file with content "0", the code returns nil ("not available") with
no error instead of the parsed integer 0 that the claim requires; the
spec-side contract (specExitCode) returns 0 there. On a container with a
null metadata reference the code goes on to dereference the nil file handle
instead of returning "not available". -/
theorem exitCode_inverted_lookup :
    Container.ExitCode { ID := encodeID { Meta := some 3 } } engineExit = .ok none ∧
    specExitCode { ID := encodeID { Meta := some 3 } } engineExit = .ok (some 0) ∧
    Container.ExitCode { ID := "" } engineExit =
      .error "runtime error: invalid memory address or nil pointer dereference" :=
  ⟨rfl, rfl, rfl⟩

/-- The six stages of Exec at which a failure can arise once decoding has
succeeded, each identified by the tag its error message carries in the
source: shim build, per-mount source resolution, filesystem-state
resolution, root marshal, per-mount propagation marshal, metadata marshal. -/
def execStageTag (p : containerIDPayload) (e : String) : Prop :=
  (∃ r, e = "build shim: " ++ r) ∨
  (∃ m, m ∈ p.Mounts ∧ ∃ r, e = "mount " ++ m.Target ++ ": " ++ r) ∨
  (∃ r, e = "fs state: " ++ r) ∨
  (∃ r, e = "marshal root: " ++ r) ∨
  (∃ m, m ∈ p.Mounts ∧ ∃ r, e = "propagate " ++ m.Target ++ ": " ++ r) ∨
  (∃ r, e = "get meta mount: " ++ r)

theorem execAssemble_error {env : GraphEnv} {p : containerIDPayload}
    {args : List String} {e : String} (h : execAssemble env p args = .error e) :
    execStageTag p e := by
  unfold execAssemble at h
  split at h
  next e2 heq =>
    injection h with h2
    exact Or.inl ⟨e2, h2.symm⟩
  next shimSt heq =>
    split at h
    next e2 heq2 =>
      injection h with h2
      subst h2
      obtain ⟨m, hm, hfm⟩ := mapExcept_error heq2
      unfold mountRunOpt at hfm
      split at hfm
      next e3 heq3 =>
        injection hfm with h3
        exact Or.inr (Or.inl ⟨m, hm, e3, h3.symm⟩)
      next => cases hfm
    next mountOpts heq2 =>
      split at h
      next e2 heq3 =>
        injection h with h2
        exact Or.inr (Or.inr (Or.inl ⟨e2, h2.symm⟩))
      next => cases h

/-- C3: once the container identity decodes, every failure arising in any
stage of Exec — shim build, mount source resolution, filesystem-state
resolution, root marshal, per-mount propagation marshal, or metadata
marshal — makes Exec return an error carrying that stage's tag and no new
container identity, and the caller's original identity still decodes to
exactly its pre-exec payload; in particular, when every stage up to the
metadata marshal succeeds and that marshal fails, Exec returns the tagged
metadata-marshal error. -/
theorem exec_failure_isolation (env : GraphEnv) (c : Container) (args : List String)
    (opts : ContainerExecOpts) (p : containerIDPayload) (hdec : c.ID.decode = .ok p) :
    (∀ e, c.Exec env args opts = .error e →
      c.ID.decode = .ok p ∧ (∀ c', c.Exec env args opts ≠ .ok c') ∧ execStageTag p e) ∧
    (∀ st ro execDef nm me,
      execAssemble env p args = .ok (st, ro) →
      env.marshal (.execRoot st ro) = .ok execDef →
      mapExcept (propagateMount env st ro) p.Mounts = .ok nm →
      env.marshal (.execMount st ro metaMount) = .error me →
      c.Exec env args opts = .error ("get meta mount: " ++ me)) := by
  constructor
  · intro e hf
    refine ⟨hdec, ?_, ?_⟩
    · intro c' hc
      rw [hf] at hc
      cases hc
    · unfold Container.Exec at hf
      split at hf
      next e2 heq =>
        rw [hdec] at heq
        cases heq
      next payload heq =>
        rw [hdec] at heq
        injection heq with hpp
        subst hpp
        split at hf
        next e2 heq2 =>
          injection hf with h2
          subst h2
          exact execAssemble_error heq2
        next st ro heq2 =>
          split at hf
          next e2 heq3 =>
            injection hf with h2
            exact Or.inr (Or.inr (Or.inr (Or.inl ⟨e2, h2.symm⟩)))
          next execDef heq3 =>
            split at hf
            next e2 heq4 =>
              injection hf with h2
              subst h2
              obtain ⟨m, hm, hfm⟩ := mapExcept_error heq4
              unfold propagateMount at hfm
              split at hfm
              next e3 heq5 =>
                injection hfm with h3
                exact Or.inr (Or.inr (Or.inr (Or.inr (Or.inl ⟨m, hm, e3, h3.symm⟩))))
              next => cases hfm
            next nm heq4 =>
              split at hf
              next e2 heq5 =>
                injection hf with h2
                exact Or.inr (Or.inr (Or.inr (Or.inr (Or.inr ⟨e2, h2.symm⟩))))
              next metaDef heq5 =>
                exact absurd hf (by simp [containerIDPayload.Encode])
  · intro st ro execDef nm me h1 h2 h3 h4
    simp only [Container.Exec, hdec, h1, h2, h3, h4]

def engineMetaFail : GraphEnv :=
  { shimBuild := .ok .scratch, defToState := fun d => .ok (.ofDef d),
    marshal := fun st =>
      match st with
      | .execMount _ _ t => if t == "/dagger" then .error "boom" else .ok 0
      | _ => .ok 0,
    fileContents := fun _ _ => none }

theorem exec_failure_isolation_witness :
    (ContainerID.decode "" = .ok {} ∧
      (∀ c', Container.Exec { ID := "" } engineMetaFail [] {} ≠ .ok c') ∧
      execStageTag {} "get meta mount: boom") ∧
    Container.Exec { ID := "" } engineMetaFail [] {} =
      .error ("get meta mount: " ++ "boom") :=
  ⟨(exec_failure_isolation engineMetaFail { ID := "" } [] {} {} rfl).1
      "get meta mount: boom" rfl,
   (exec_failure_isolation engineMetaFail { ID := "" } [] {} {} rfl).2
      .scratch (baseRunOpts .scratch [] ++ workdirOpts {} ++ envVarOpts [] ++ [])
      0 [] "boom" rfl rfl rfl rfl⟩

/-- C4: on every successful Exec, each mount entry of the new container keeps
the target and source sub-path of the corresponding pre-exec entry while its
source reference is replaced by the marshaled post-execution state of that
mount target; and when a marshal fails during this propagation (the earlier
stages having succeeded), Exec aborts with an error tagged with that mount's
target. -/
theorem exec_mount_propagation (env : GraphEnv) (c : Container) (args : List String)
    (opts : ContainerExecOpts) (p : containerIDPayload) (hdec : c.ID.decode = .ok p) :
    (∀ c', c.Exec env args opts = .ok c' →
      ∃ st ro execDef newMounts metaDef,
        execAssemble env p args = .ok (st, ro) ∧
        env.marshal (.execRoot st ro) = .ok execDef ∧
        mapExcept (propagateMount env st ro) p.Mounts = .ok newMounts ∧
        env.marshal (.execMount st ro metaMount) = .ok metaDef ∧
        c'.ID.decode =
          .ok { p with FS := some execDef, Mounts := newMounts, Meta := some metaDef } ∧
        newMounts.length = p.Mounts.length ∧
        (∀ i (h1 : i < p.Mounts.length) (h2 : i < newMounts.length),
          (newMounts.get ⟨i, h2⟩).Target = (p.Mounts.get ⟨i, h1⟩).Target ∧
          (newMounts.get ⟨i, h2⟩).SourcePath = (p.Mounts.get ⟨i, h1⟩).SourcePath ∧
          ∃ d, env.marshal (.execMount st ro (p.Mounts.get ⟨i, h1⟩).Target) = .ok d ∧
            (newMounts.get ⟨i, h2⟩).Source = some d)) ∧
    (∀ st ro execDef e,
      execAssemble env p args = .ok (st, ro) →
      env.marshal (.execRoot st ro) = .ok execDef →
      mapExcept (propagateMount env st ro) p.Mounts = .error e →
      c.Exec env args opts = .error e ∧
      ∃ m, m ∈ p.Mounts ∧ ∃ r, e = "propagate " ++ m.Target ++ ": " ++ r) := by
  constructor
  · intro c' hc
    unfold Container.Exec at hc
    split at hc
    next e2 heq =>
      rw [hdec] at heq
      cases heq
    next payload heq =>
      rw [hdec] at heq
      injection heq with hpp
      subst hpp
      split at hc
      next => cases hc
      next st ro heq1 =>
        split at hc
        next => cases hc
        next execDef heq2 =>
          split at hc
          next => cases hc
          next newMounts heq3 =>
            split at hc
            next => cases hc
            next metaDef heq4 =>
              dsimp only [containerIDPayload.Encode] at hc
              injection hc with hc2
              subst hc2
              obtain ⟨hlen, helem⟩ := mapExcept_ok heq3
              refine ⟨st, ro, execDef, newMounts, metaDef, heq1, heq2, heq3, heq4,
                decode_encodeID _, hlen, ?_⟩
              intro i h1 h2
              have hfi := helem i h1 h2
              unfold propagateMount at hfi
              split at hfi
              next => cases hfi
              next d heqd =>
                injection hfi with h5
                refine ⟨by rw [← h5], by rw [← h5], d, heqd, by rw [← h5]⟩
  · intro st ro execDef e h1 h2 h3
    constructor
    · simp only [Container.Exec, hdec, h1, h2, h3]
    · obtain ⟨m, hm, hfm⟩ := mapExcept_error h3
      unfold propagateMount at hfm
      split at hfm
      next e3 heq =>
        injection hfm with h4
        exact ⟨m, hm, e3, h4.symm⟩
      next => cases hfm

def payloadP4 : containerIDPayload :=
  { Mounts := [{ Source := some 1, SourcePath := "sub", Target := "/data" }] }

def enginePropFail : GraphEnv :=
  { shimBuild := .ok .scratch, defToState := fun d => .ok (.ofDef d),
    marshal := fun st =>
      match st with
      | .execMount _ _ t => if t == "/dagger" then .ok 0 else .error "boom"
      | _ => .ok 0,
    fileContents := fun _ _ => none }

def runOptsP4 : List RunOption :=
  baseRunOpts .scratch [] ++ workdirOpts {} ++ envVarOpts [] ++
    [RunOption.addMount "/data" (.ofDef (some 1)) [.sourcePath "sub"]]

def payloadP4exec : containerIDPayload :=
  { FS := some 0, Config := {},
    Mounts := [{ Source := some 0, SourcePath := "sub", Target := "/data" }],
    Meta := some 0 }

theorem exec_mount_propagation_witness :
    (∃ st ro execDef newMounts metaDef,
      execAssemble engineOK payloadP4 [] = .ok (st, ro) ∧
      engineOK.marshal (.execRoot st ro) = .ok execDef ∧
      mapExcept (propagateMount engineOK st ro) payloadP4.Mounts = .ok newMounts ∧
      engineOK.marshal (.execMount st ro metaMount) = .ok metaDef ∧
      ContainerID.decode (Container.ID { ID := encodeID payloadP4exec }) =
        .ok { payloadP4 with
              FS := some execDef
              Mounts := newMounts
              Meta := some metaDef } ∧
      newMounts.length = payloadP4.Mounts.length ∧
      (∀ i (h1 : i < payloadP4.Mounts.length) (h2 : i < newMounts.length),
        (newMounts.get ⟨i, h2⟩).Target = (payloadP4.Mounts.get ⟨i, h1⟩).Target ∧
        (newMounts.get ⟨i, h2⟩).SourcePath = (payloadP4.Mounts.get ⟨i, h1⟩).SourcePath ∧
        ∃ d, engineOK.marshal (.execMount st ro (payloadP4.Mounts.get ⟨i, h1⟩).Target) = .ok d ∧
          (newMounts.get ⟨i, h2⟩).Source = some d)) ∧
    (Container.Exec { ID := encodeID payloadP4 } enginePropFail [] {} =
        .error "propagate /data: boom" ∧
      ∃ m, m ∈ payloadP4.Mounts ∧
        ∃ r, "propagate /data: boom" = "propagate " ++ m.Target ++ ": " ++ r) :=
  ⟨(exec_mount_propagation engineOK { ID := encodeID payloadP4 } [] {} payloadP4
      (decode_encodeID payloadP4)).1
      { ID := encodeID payloadP4exec } rfl,
   (exec_mount_propagation enginePropFail { ID := encodeID payloadP4 } [] {} payloadP4
      (decode_encodeID payloadP4)).2
      .scratch runOptsP4 0 "propagate /data: boom" rfl rfl rfl⟩

theorem cutChar_not_mem {sep : Char} {l : List Char} (h : sep ∉ l) :
    cutChar sep l = none := by
  induction l with
  | nil => rfl
  | cons c cs ih =>
    simp only [cutChar]
    rw [if_neg (fun hc => h (by rw [← hc]; exact List.mem_cons_self c cs)),
      ih (fun hm => h (List.mem_cons_of_mem c hm))]

/-- C8: every configured environment entry that contains no '=' character is
attached to the run by Exec as a variable whose name is the whole entry and
whose value is the empty string — strings.Cut yields (entry, "") and the
assembled run options contain the corresponding AddEnv option — and the
operation never fails on such an entry. -/
theorem exec_env_no_eq_sign (entry : String) (h : '=' ∉ entry.data) :
    cutEq entry = (entry, "") ∧
    (∀ envs : List String, entry ∈ envs →
      RunOption.addEnv entry "" ∈ envVarOpts envs) ∧
    (∀ (env : GraphEnv) (p : containerIDPayload) (args : List String)
        (st : LLBState) (ro : List RunOption),
      execAssemble env p args = .ok (st, ro) → entry ∈ p.Config.Env →
      RunOption.addEnv entry "" ∈ ro) := by
  have hc : cutEq entry = (entry, "") := by
    unfold cutEq
    rw [cutChar_not_mem h]
  have hmem : ∀ envs : List String, entry ∈ envs →
      RunOption.addEnv entry "" ∈ envVarOpts envs := by
    intro envs hm
    unfold envVarOpts
    refine List.mem_map.2 ⟨entry, hm, ?_⟩
    rw [hc]
  refine ⟨hc, hmem, ?_⟩
  intro env p args st ro hA hm
  unfold execAssemble at hA
  split at hA
  next => cases hA
  next shimSt heq =>
    split at hA
    next => cases hA
    next mountOpts heq2 =>
      split at hA
      next => cases hA
      next st2 heq3 =>
        injection hA with hA2
        have hro : baseRunOpts shimSt args ++ workdirOpts p.Config ++
            envVarOpts p.Config.Env ++ mountOpts = ro :=
          congrArg Prod.snd hA2
        rw [← hro]
        have h1 : RunOption.addEnv entry "" ∈ envVarOpts p.Config.Env := hmem _ hm
        simp only [List.mem_append]
        exact Or.inl (Or.inr h1)

theorem exec_env_no_eq_sign_witness :
    cutEq "FOO" = ("FOO", "") ∧
    (∀ envs : List String, "FOO" ∈ envs →
      RunOption.addEnv "FOO" "" ∈ envVarOpts envs) ∧
    (∀ (env : GraphEnv) (p : containerIDPayload) (args : List String)
        (st : LLBState) (ro : List RunOption),
      execAssemble env p args = .ok (st, ro) → "FOO" ∈ p.Config.Env →
      RunOption.addEnv "FOO" "" ∈ ro) :=
  exec_env_no_eq_sign "FOO" (by decide)
